import Mathlib

/-!
# Verification of the PPK2 latency-analysis core

Shallow embedding of `script/ppk_record_analysis.py`: the edge detector
(`detect_rising_edges`), the trigger matcher
(`match_triggers_and_calculate_latency`), the report builder
(`generate_markdown_table`) and the `main` pipeline glue.

Timestamps and latencies (Python floats holding millisecond values) are
modelled as rationals `ℚ`; digital channel samples (Python `int`) as `ℤ`.
The per-send warning prints of the matcher (`"Warning: No matching RX trigger
found for TX trigger ..."`) are modelled as a returned diagnostic list of
`(packet_num, tx_time)` pairs alongside the measurements, and the markdown
string rendering of the report is abstracted to a structured report value
carrying exactly the statistics and rows the Python code computes and
prints (the `.3f`/`.2f` decimal formatting is presentation only).
-/

namespace PPK

/-- Embeds the Python class `LatencyMeasurement` (a latency measurement
between TX and RX triggers): fields `packet_num`, `tx_time`, `rx_time`,
and `latency`, the last set by the constructor to `rx_time - tx_time`. -/
structure LatencyMeasurement where
  packet_num : ℕ
  tx_time : ℚ
  rx_time : ℚ
  latency : ℚ
  deriving Repr, DecidableEq

/-- The Python constructor `LatencyMeasurement.__init__`: stores the three
arguments and computes `latency = rx_time - tx_time`. -/
def LatencyMeasurement.make (packet_num : ℕ) (tx_time rx_time : ℚ) :
    LatencyMeasurement :=
  ⟨packet_num, tx_time, rx_time, rx_time - tx_time⟩

/-- The loop body of `detect_rising_edges`: walks the zipped
`(timestamp, value)` pairs carrying `prev_value`, and appends `timestamp`
whenever `prev_value == 0 and value == 1`; `prev_value` is then set to
`value` in every iteration. -/
def detectGo (prev_value : ℤ) : List (ℚ × ℤ) → List ℚ
  | [] => []
  | (timestamp, value) :: rest =>
    if prev_value = 0 ∧ value = 1 then timestamp :: detectGo value rest
    else detectGo value rest

/-- Embeds `detect_rising_edges(timestamps, channel_data)`: detect 0→1
transitions in digital channel data, with `prev_value` initialised to `0`
(the Python `zip` truncates to the shorter list, as `List.zip` does). -/
def detect_rising_edges (timestamps : List ℚ) (channel_data : List ℤ) :
    List ℚ :=
  detectGo 0 (timestamps.zip channel_data)

/-- The inner loop of `match_triggers_and_calculate_latency`: scan the RX
triggers with their enumeration index `i`, skipping indices in
`used_rx_indices`, RX times with `rx_time <= tx_time`, and candidates with
`latency > max_latency_ms`; keep the running best `(best_idx, best_match)`
(`none` plays the role of `best_latency = inf`, `best_match = None`), which
is replaced only on a strictly smaller latency. -/
def scanRx (tx_time max_latency_ms : ℚ) (used_rx_indices : List ℕ) :
    ℕ → Option (ℕ × ℚ) → List ℚ → Option (ℕ × ℚ)
  | _, best, [] => best
  | i, best, rx_time :: rest =>
    if i ∈ used_rx_indices then
      scanRx tx_time max_latency_ms used_rx_indices (i + 1) best rest
    else if rx_time ≤ tx_time then
      scanRx tx_time max_latency_ms used_rx_indices (i + 1) best rest
    else if rx_time - tx_time > max_latency_ms then
      scanRx tx_time max_latency_ms used_rx_indices (i + 1) best rest
    else
      match best with
      | none =>
        scanRx tx_time max_latency_ms used_rx_indices (i + 1)
          (some (i, rx_time)) rest
      | some (best_idx, best_match) =>
        if rx_time - tx_time < best_match - tx_time then
          scanRx tx_time max_latency_ms used_rx_indices (i + 1)
            (some (i, rx_time)) rest
        else
          scanRx tx_time max_latency_ms used_rx_indices (i + 1)
            (some (best_idx, best_match)) rest

/-- The outer loop of `match_triggers_and_calculate_latency`: enumerate the
TX triggers as `packet_num`; on a best match append a `LatencyMeasurement`
and add `best_idx` to the used set; otherwise record the warning-printed
unmatched send `(packet_num, tx_time)` as a diagnostic. -/
def matchLoop (max_latency_ms : ℚ) (rx_triggers : List ℚ) :
    ℕ → List ℕ → List ℚ → List LatencyMeasurement × List (ℕ × ℚ)
  | _, _, [] => ([], [])
  | packet_num, used_rx_indices, tx_time :: tx_rest =>
    match scanRx tx_time max_latency_ms used_rx_indices 0 none rx_triggers with
    | some (best_idx, best_match) =>
      let r := matchLoop max_latency_ms rx_triggers (packet_num + 1)
        (best_idx :: used_rx_indices) tx_rest
      (LatencyMeasurement.make packet_num tx_time best_match :: r.1, r.2)
    | none =>
      let r := matchLoop max_latency_ms rx_triggers (packet_num + 1)
        used_rx_indices tx_rest
      (r.1, (packet_num, tx_time) :: r.2)

/-- Embeds `match_triggers_and_calculate_latency(tx_triggers, rx_triggers,
max_latency_ms)`: the measurement list it returns, paired with the
diagnostic list of unmatched send events it prints warnings for. -/
def match_triggers_and_calculate_latency (tx_triggers rx_triggers : List ℚ)
    (max_latency_ms : ℚ) : List LatencyMeasurement × List (ℕ × ℚ) :=
  matchLoop max_latency_ms rx_triggers 0 [] tx_triggers

/-- The structured content of the report rendered by
`generate_markdown_table`: either the sentinel `"No measurements
available."` text, or the summary statistics (total packet count, average,
minimum and maximum latency) followed by one row per measurement. -/
inductive Report where
  | noData : Report
  | table (count : ℕ) (avg_latency min_latency max_latency : ℚ)
      (rows : List LatencyMeasurement) : Report
  deriving Repr, DecidableEq

/-- Embeds `generate_markdown_table(measurements)`: on an empty list return
the sentinel report; otherwise compute `avg = sum(latencies) /
len(latencies)`, `min(latencies)` and `max(latencies)` (the Python `min`/`max`
over a non-empty list fold from its first element) and render the summary
statistics followed by one row per measurement, abstracted here to a
structured `Report`. -/
def generate_markdown_table (measurements : List LatencyMeasurement) :
    Report :=
  match measurements with
  | [] => Report.noData
  | m :: rest =>
    let latencies := (m :: rest).map (·.latency)
    let avg_latency := latencies.sum / (latencies.length : ℚ)
    let min_latency := (rest.map (·.latency)).foldl min m.latency
    let max_latency := (rest.map (·.latency)).foldl max m.latency
    Report.table (m :: rest).length avg_latency min_latency max_latency
      (m :: rest)

/-- The rows carried by a report (`[]` for the sentinel report). -/
def Report.rows : Report → List LatencyMeasurement
  | Report.noData => []
  | Report.table _ _ _ _ r => r

/-- The packet count of a report (`0` for the sentinel report). -/
def Report.count : Report → ℕ
  | Report.noData => 0
  | Report.table c _ _ _ _ => c

/-- The average latency of a report (`0` for the sentinel report). -/
def Report.avg : Report → ℚ
  | Report.noData => 0
  | Report.table _ a _ _ _ => a

/-- The minimum latency of a report (`0` for the sentinel report). -/
def Report.minLat : Report → ℚ
  | Report.noData => 0
  | Report.table _ _ mi _ _ => mi

/-- The maximum latency of a report (`0` for the sentinel report). -/
def Report.maxLat : Report → ℚ
  | Report.noData => 0
  | Report.table _ _ _ ma _ => ma

/-- The observable outcome of `main` after CSV parsing: the fatal
`"Error: No TX triggers found"` / `"Error: No RX triggers found"` exits,
the fatal `"Error: No valid latency measurements could be calculated"`
exit, or the rendered report. -/
inductive PipelineResult where
  | emptyTxError : PipelineResult
  | emptyRxError : PipelineResult
  | noValidPairsError : PipelineResult
  | report (r : Report) : PipelineResult
  deriving Repr, DecidableEq

/-- Embeds the analysis stages of `main` downstream of `parse_csv_file`:
exit on empty TX triggers, then on empty RX triggers, then match, then exit
on an empty measurement list, and only otherwise call
`generate_markdown_table`. -/
def analysis_pipeline (tx_triggers rx_triggers : List ℚ)
    (max_latency_ms : ℚ) : PipelineResult :=
  if tx_triggers = [] then PipelineResult.emptyTxError
  else if rx_triggers = [] then PipelineResult.emptyRxError
  else
    let measurements :=
      (match_triggers_and_calculate_latency tx_triggers rx_triggers
        max_latency_ms).1
    if measurements = [] then PipelineResult.noValidPairsError
    else PipelineResult.report (generate_markdown_table measurements)

/-! ## Specification-side definitions

These transcribe the wording of the spec (§4.2 matching algorithm, §8 edge
detection correctness) and are compared with the embedded code. -/

/-- Modelled from the spec: the eligibility condition on an indexed receive
event for a send event at `t_s` — not yet consumed, `t_r > t_s`, and
`t_r - t_s ≤ max_latency`. These are also exactly the three skip tests of
`scanRx`, negated. -/
def eligible (used : List ℕ) (t_s max_latency : ℚ) (p : ℕ × ℚ) : Bool :=
  decide (p.1 ∉ used) && decide (t_s < p.2) && decide (p.2 - t_s ≤ max_latency)

/-- Modelled from the spec: the candidate receive events for a send event
at `t_s` — all receive events, with their scan index, not yet consumed and
satisfying `t_r > t_s` and `t_r - t_s ≤ max_latency`, in scan order. -/
def spec_candidates (used : List ℕ) (t_s max_latency : ℚ) (rx : List ℚ) :
    List (ℕ × ℚ) :=
  rx.enum.filter (eligible used t_s max_latency)

/-- Modelled from the spec: select the candidate with the smallest
`t_r - t_s`, ties broken by the first-encountered (earliest scan order)
minimum. -/
def firstMin (t_s : ℚ) : List (ℕ × ℚ) → Option (ℕ × ℚ)
  | [] => none
  | c :: rest =>
    match firstMin t_s rest with
    | none => some c
    | some d => if d.2 - t_s < c.2 - t_s then some d else some c

/-- Modelled from the spec: the receive event chosen for a send event at
`t_s`, if any. -/
def spec_select (used : List ℕ) (t_s max_latency : ℚ) (rx : List ℚ) :
    Option (ℕ × ℚ) :=
  firstMin t_s (spec_candidates used t_s max_latency rx)

/-- Modelled from the spec: the greedy matching loop — enumerate send
events in order, emit a measurement for the selected candidate and mark it
consumed, or record the send event as unmatched. -/
def spec_loop (max_latency : ℚ) (rx : List ℚ) :
    ℕ → List ℕ → List ℚ → List LatencyMeasurement × List (ℕ × ℚ)
  | _, _, [] => ([], [])
  | pn, used, t_s :: tx_rest =>
    match spec_select used t_s max_latency rx with
    | some (i, r) =>
      let res := spec_loop max_latency rx (pn + 1) (i :: used) tx_rest
      (LatencyMeasurement.make pn t_s r :: res.1, res.2)
    | none =>
      let res := spec_loop max_latency rx (pn + 1) used tx_rest
      (res.1, (pn, t_s) :: res.2)

/-- Modelled from the spec: the whole matcher, §4.2. -/
def spec_matcher (tx rx : List ℚ) (max_latency : ℚ) :
    List LatencyMeasurement × List (ℕ × ℚ) :=
  spec_loop max_latency rx 0 [] tx

/-- Proof helper: the left-biased choice between two running bests of
`scanRx` — the second argument replaces the first only on a strictly
smaller latency. -/
def better (t_s : ℚ) : Option (ℕ × ℚ) → Option (ℕ × ℚ) → Option (ℕ × ℚ)
  | none, c => c
  | some b, none => some b
  | some b, some c => if c.2 - t_s < b.2 - t_s then some c else some b

/-- Modelled from the spec (§8): the number of maximal runs of 1s not
preceded by a 1, with an implicit 0 before the first sample — counted as
the positions whose predecessor (implicitly 0 at the head) is not 1 while
the position itself is 1. -/
def maximal_run_count (levels : List ℤ) : ℕ :=
  (((0 : ℤ) :: levels).zip levels).countP fun p =>
    decide (p.1 ≠ 1) && decide (p.2 = 1)

/-- Modelled from the spec (§8): the timestamps of the first samples of the
maximal runs of 1s not preceded by a 1 (implicit 0 before the first
sample). -/
def run_start_times (timestamps : List ℚ) (levels : List ℤ) : List ℚ :=
  ((timestamps.zip (((0 : ℤ) :: levels).zip levels)).filter fun p =>
    decide (p.2.1 ≠ 1) && decide (p.2.2 = 1)).map (·.1)

/-! ## Lemmas about the scan for the best receive event -/

theorem better_none_right (t_s : ℚ) (b : Option (ℕ × ℚ)) :
    better t_s b none = b := by
  cases b <;> rfl

theorem better_assoc (t_s : ℚ) (a b c : Option (ℕ × ℚ)) :
    better t_s (better t_s a b) c = better t_s a (better t_s b c) := by
  rcases a with _ | a <;> rcases b with _ | b <;> rcases c with _ | c <;>
    simp only [better] <;> (try split_ifs) <;> simp only [better] <;>
    (try split_ifs) <;> first
      | rfl
      | (exfalso; linarith)

/-- Accumulator lemma: running the scan with an initial best is the
left-biased choice between that best and the scan started from none. -/
theorem scanRx_eq_better (t_s m : ℚ) (used : List ℕ) :
    ∀ (l : List ℚ) (i : ℕ) (best : Option (ℕ × ℚ)),
    scanRx t_s m used i best l = better t_s best (scanRx t_s m used i none l) := by
  intro l
  induction l with
  | nil => intro i best; simp [scanRx, better_none_right]
  | cons r rest ih =>
    intro i best
    by_cases h1 : i ∈ used
    · simp only [scanRx, if_pos h1]
      exact ih (i + 1) best
    · by_cases h2 : r ≤ t_s
      · simp only [scanRx, if_neg h1, if_pos h2]
        exact ih (i + 1) best
      · by_cases h3 : r - t_s > m
        · simp only [scanRx, if_neg h1, if_neg h2, if_pos h3]
          exact ih (i + 1) best
        · rcases best with _ | ⟨bi, bm⟩
          · simp only [scanRx, if_neg h1, if_neg h2, if_neg h3, better]
          · simp only [scanRx, if_neg h1, if_neg h2, if_neg h3]
            rw [ih (i + 1) (some (i, r)), ih (i + 1) (some (bi, bm)),
              ← better_assoc]
            simp only [better]
            split_ifs <;> rfl

/-- The scan started from none selects the first-encountered minimum of the
eligible candidates among the receive events enumerated from `i`. -/
theorem scanRx_none_eq_firstMin (t_s m : ℚ) (used : List ℕ) :
    ∀ (l : List ℚ) (i : ℕ),
    scanRx t_s m used i none l =
      firstMin t_s ((l.enumFrom i).filter (eligible used t_s m)) := by
  intro l
  induction l with
  | nil => intro i; simp [scanRx, firstMin]
  | cons r rest ih =>
    intro i
    rw [List.enumFrom_cons]
    by_cases h1 : i ∈ used
    · have hp : eligible used t_s m (i, r) = false := by
        simp [eligible, h1]
      simp only [scanRx, if_pos h1, List.filter_cons, hp, Bool.false_eq_true,
        if_false]
      exact ih (i + 1)
    · by_cases h2 : r ≤ t_s
      · have hp : eligible used t_s m (i, r) = false := by
          simp [eligible, not_lt.mpr h2]
        simp only [scanRx, if_neg h1, if_pos h2, List.filter_cons, hp,
          Bool.false_eq_true, if_false]
        exact ih (i + 1)
      · by_cases h3 : r - t_s > m
        · have hp : eligible used t_s m (i, r) = false := by
            simp [eligible, not_le.mpr h3]
          simp only [scanRx, if_neg h1, if_neg h2, if_pos h3, List.filter_cons,
            hp, Bool.false_eq_true, if_false]
          exact ih (i + 1)
        · have hp : eligible used t_s m (i, r) = true := by
            simp [eligible, h1, not_le.mp h2, not_lt.mp h3]
          simp only [scanRx, if_neg h1, if_neg h2, if_neg h3, List.filter_cons,
            hp, if_true]
          rw [scanRx_eq_better t_s m used rest (i + 1) (some (i, r)), ih (i + 1)]
          cases hf : firstMin t_s ((rest.enumFrom (i + 1)).filter
            (eligible used t_s m)) with
          | none => simp [firstMin, hf, better]
          | some d => simp [firstMin, hf, better]

/-- The inner loop of the matcher computes exactly the selection described
by the spec. -/
theorem scanRx_eq_spec_select (t_s m : ℚ) (used : List ℕ) (rx : List ℚ) :
    scanRx t_s m used 0 none rx = spec_select used t_s m rx := by
  rw [scanRx_none_eq_firstMin]
  rfl

/-! ## Lemmas about the first-encountered minimum -/

theorem firstMin_eq_none_iff (t_s : ℚ) (l : List (ℕ × ℚ)) :
    firstMin t_s l = none ↔ l = [] := by
  cases l with
  | nil => simp [firstMin]
  | cons c rest =>
    cases hf : firstMin t_s rest with
    | none => simp [firstMin, hf]
    | some d =>
      simp only [firstMin, hf]
      split_ifs <;> simp

theorem firstMin_mem {t_s : ℚ} :
    ∀ {l : List (ℕ × ℚ)} {c : ℕ × ℚ}, firstMin t_s l = some c → c ∈ l := by
  intro l
  induction l with
  | nil => intro c h; simp [firstMin] at h
  | cons a rest ih =>
    intro c h
    cases hf : firstMin t_s rest with
    | none =>
      simp only [firstMin, hf] at h
      simp at h
      simp [h]
    | some d =>
      simp only [firstMin, hf] at h
      split_ifs at h with hlt
      · exact List.mem_cons_of_mem a (ih (hf.trans (by rw [h])))
      · simp at h
        simp [h]

theorem firstMin_le {t_s : ℚ} :
    ∀ {l : List (ℕ × ℚ)} {c : ℕ × ℚ}, firstMin t_s l = some c →
      ∀ p ∈ l, c.2 - t_s ≤ p.2 - t_s := by
  intro l
  induction l with
  | nil => intro c h; simp [firstMin] at h
  | cons a rest ih =>
    intro c h p hp
    cases hf : firstMin t_s rest with
    | none =>
      simp only [firstMin, hf] at h
      simp at h
      have hrest : rest = [] := (firstMin_eq_none_iff t_s rest).mp hf
      subst hrest
      simp at hp
      simp [h, hp]
    | some d =>
      simp only [firstMin, hf] at h
      rcases List.mem_cons.mp hp with hpa | hpr
      · subst hpa
        split_ifs at h with hlt
        · simp at h
          subst h
          exact le_of_lt hlt
        · simp at h
          subst h
          exact le_refl _
      · have hd := ih hf p hpr
        split_ifs at h with hlt
        · simp at h
          subst h
          exact hd
        · simp at h
          subst h
          exact le_trans (not_lt.mp hlt) hd

/-- Among equal-latency candidates in a list with strictly increasing scan
indices, the first-encountered minimum has the lowest scan index. -/
theorem firstMin_leftmost {t_s : ℚ} :
    ∀ {l : List (ℕ × ℚ)} {c : ℕ × ℚ},
      l.Pairwise (fun a b => a.1 < b.1) → firstMin t_s l = some c →
      ∀ p ∈ l, p.2 - t_s = c.2 - t_s → c.1 ≤ p.1 := by
  intro l
  induction l with
  | nil => intro c _ h; simp [firstMin] at h
  | cons a rest ih =>
    intro c hpw h p hp heq
    rcases List.pairwise_cons.mp hpw with ⟨ha, hrest⟩
    cases hf : firstMin t_s rest with
    | none =>
      simp only [firstMin, hf] at h
      simp at h
      subst h
      have : rest = [] := (firstMin_eq_none_iff t_s rest).mp hf
      subst this
      simp at hp
      simp [hp]
    | some d =>
      simp only [firstMin, hf] at h
      split_ifs at h with hlt
      · simp at h
        subst h
        rcases List.mem_cons.mp hp with hpa | hpr
        · subst hpa
          exact absurd heq (by intro he; rw [he] at hlt; exact lt_irrefl _ hlt)
        · exact ih hrest hf p hpr heq
      · simp at h
        subst h
        rcases List.mem_cons.mp hp with hpa | hpr
        · subst hpa
          exact le_refl _
        · exact le_of_lt (ha p hpr)

/-! ## Lemmas about candidate membership -/

theorem eligible_of_mem_spec_candidates {used : List ℕ} {t_s m : ℚ}
    {rx : List ℚ} {c : ℕ × ℚ} (h : c ∈ spec_candidates used t_s m rx) :
    c.1 ∉ used ∧ t_s < c.2 ∧ c.2 - t_s ≤ m ∧ c.1 < rx.length ∧
      rx.getD c.1 0 = c.2 := by
  rcases List.mem_filter.mp h with ⟨hmem, hel⟩
  have hidx := List.mem_enum_iff_getElem?.mp hmem
  rcases List.getElem?_eq_some_iff.mp hidx with ⟨hlt, hget⟩
  simp only [eligible, Bool.and_eq_true, decide_eq_true_eq] at hel
  exact ⟨hel.1.1, hel.1.2, hel.2, hlt, by rw [List.getD_eq_getElem _ _ hlt, hget]⟩

theorem spec_candidates_pairwise_fst (used : List ℕ) (t_s m : ℚ)
    (rx : List ℚ) :
    (spec_candidates used t_s m rx).Pairwise (fun a b => a.1 < b.1) := by
  apply List.Pairwise.filter
  have : ∀ (l : List ℚ) (n : ℕ),
      (l.enumFrom n).Pairwise (fun a b => a.1 < b.1) := by
    intro l
    induction l with
    | nil => intro n; simp
    | cons x xs ih =>
      intro n
      rw [List.enumFrom_cons]
      refine List.pairwise_cons.mpr ⟨?_, ih (n + 1)⟩
      intro p hp
      have := (List.mk_mem_enumFrom_iff_le_and_getElem?_sub.mp
        (show (p.1, p.2) ∈ xs.enumFrom (n + 1) by simpa using hp)).1
      omega
  exact this rx 0

/-- Everything the matcher guarantees about a successful inner scan: the
selected receive event is an eligible candidate. -/
theorem scanRx_some_valid {t_s m : ℚ} {used : List ℕ} {rx : List ℚ}
    {i : ℕ} {r : ℚ} (h : scanRx t_s m used 0 none rx = some (i, r)) :
    i ∉ used ∧ t_s < r ∧ r - t_s ≤ m ∧ i < rx.length ∧ rx.getD i 0 = r := by
  rw [scanRx_eq_spec_select] at h
  exact eligible_of_mem_spec_candidates (firstMin_mem h)

/-! ## Lemmas about the matching loop -/

/-- The matching loop is the spec loop. -/
theorem matchLoop_eq_spec_loop (m : ℚ) (rx : List ℚ) :
    ∀ (tx : List ℚ) (pn : ℕ) (used : List ℕ),
    matchLoop m rx pn used tx = spec_loop m rx pn used tx := by
  intro tx
  induction tx with
  | nil => intro pn used; rfl
  | cons t_s tx_rest ih =>
    intro pn used
    simp only [matchLoop, spec_loop, scanRx_eq_spec_select]
    cases spec_select used t_s m rx with
    | none => simp [ih]
    | some c => rcases c with ⟨i, r⟩; simp [ih]

/-- Every measurement the loop emits satisfies the causality and bound
constraints, and its latency field is the difference of its two times. -/
theorem matchLoop_measurement_valid (m : ℚ) (rx : List ℚ) :
    ∀ (tx : List ℚ) (pn : ℕ) (used : List ℕ),
    ∀ mm ∈ (matchLoop m rx pn used tx).1,
      mm.latency = mm.rx_time - mm.tx_time ∧ mm.tx_time < mm.rx_time ∧
        mm.rx_time - mm.tx_time ≤ m := by
  intro tx
  induction tx with
  | nil => intro pn used mm hmm; simp [matchLoop] at hmm
  | cons t_s tx_rest ih =>
    intro pn used mm hmm
    cases hs : scanRx t_s m used 0 none rx with
    | none =>
      simp only [matchLoop, hs] at hmm
      exact ih (pn + 1) used mm hmm
    | some c =>
      rcases c with ⟨i, r⟩
      simp only [matchLoop, hs] at hmm
      rcases List.mem_cons.mp hmm with hhead | htail
      · rcases scanRx_some_valid hs with ⟨_, hlt, hle, _, _⟩
        subst hhead
        exact ⟨rfl, hlt, hle⟩
      · exact ih (pn + 1) (i :: used) mm htail

/-- The packet number of every emitted measurement is the enumeration index
of its send event: it is at least the running counter, within range, and
the send-time stored alongside it is the send event at that index. -/
theorem matchLoop_packet_num (m : ℚ) (rx : List ℚ) :
    ∀ (tx : List ℚ) (pn : ℕ) (used : List ℕ),
    ∀ mm ∈ (matchLoop m rx pn used tx).1,
      pn ≤ mm.packet_num ∧ mm.packet_num - pn < tx.length ∧
        tx.getD (mm.packet_num - pn) 0 = mm.tx_time := by
  intro tx
  induction tx with
  | nil => intro pn used mm hmm; simp [matchLoop] at hmm
  | cons t_s tx_rest ih =>
    intro pn used mm hmm
    cases hs : scanRx t_s m used 0 none rx with
    | none =>
      simp only [matchLoop, hs] at hmm
      rcases ih (pn + 1) used mm hmm with ⟨h1, h2, h3⟩
      refine ⟨by omega, by simp; omega, ?_⟩
      have : mm.packet_num - pn = (mm.packet_num - (pn + 1)) + 1 := by omega
      rw [this, List.getD_cons_succ]
      exact h3
    | some c =>
      rcases c with ⟨i, r⟩
      simp only [matchLoop, hs] at hmm
      rcases List.mem_cons.mp hmm with hhead | htail
      · subst hhead
        simp [LatencyMeasurement.make]
      · rcases ih (pn + 1) (i :: used) mm htail with ⟨h1, h2, h3⟩
        refine ⟨by omega, by simp; omega, ?_⟩
        have : mm.packet_num - pn = (mm.packet_num - (pn + 1)) + 1 := by omega
        rw [this, List.getD_cons_succ]
        exact h3

/-- Packet numbers of emitted measurements are strictly increasing. -/
theorem matchLoop_packet_sorted (m : ℚ) (rx : List ℚ) :
    ∀ (tx : List ℚ) (pn : ℕ) (used : List ℕ),
    ((matchLoop m rx pn used tx).1).Pairwise
      (fun a b => a.packet_num < b.packet_num) := by
  intro tx
  induction tx with
  | nil => intro pn used; simp [matchLoop]
  | cons t_s tx_rest ih =>
    intro pn used
    cases hs : scanRx t_s m used 0 none rx with
    | none =>
      simp only [matchLoop, hs]
      exact ih (pn + 1) used
    | some c =>
      rcases c with ⟨i, r⟩
      simp only [matchLoop, hs]
      refine List.pairwise_cons.mpr ⟨?_, ih (pn + 1) (i :: used)⟩
      intro b hb
      have := (matchLoop_packet_num m rx tx_rest (pn + 1) (i :: used) b hb).1
      simp [LatencyMeasurement.make]
      omega

/-- At most one measurement is emitted per send event. -/
theorem matchLoop_length_le (m : ℚ) (rx : List ℚ) :
    ∀ (tx : List ℚ) (pn : ℕ) (used : List ℕ),
    (matchLoop m rx pn used tx).1.length ≤ tx.length := by
  intro tx
  induction tx with
  | nil => intro pn used; simp [matchLoop]
  | cons t_s tx_rest ih =>
    intro pn used
    cases hs : scanRx t_s m used 0 none rx with
    | none =>
      simp only [matchLoop, hs]
      exact le_trans (ih (pn + 1) used) (Nat.le_succ _)
    | some c =>
      rcases c with ⟨i, r⟩
      simp only [matchLoop, hs, List.length_cons]
      exact Nat.succ_le_succ (ih (pn + 1) (i :: used))

/-- The receive times of the emitted measurements are read off a duplicate-
free list of fresh in-range receive indices: the one-to-one consumption
invariant. -/
theorem matchLoop_rx_indices (m : ℚ) (rx : List ℚ) :
    ∀ (tx : List ℚ) (pn : ℕ) (used : List ℕ),
    ∃ idxs : List ℕ, idxs.Nodup ∧ (∀ i ∈ idxs, i ∉ used ∧ i < rx.length) ∧
      (matchLoop m rx pn used tx).1.map (·.rx_time) =
        idxs.map (fun i => rx.getD i 0) := by
  intro tx
  induction tx with
  | nil => intro pn used; exact ⟨[], by simp, by simp, by simp [matchLoop]⟩
  | cons t_s tx_rest ih =>
    intro pn used
    cases hs : scanRx t_s m used 0 none rx with
    | none =>
      rcases ih (pn + 1) used with ⟨idxs, hnd, hfresh, hmap⟩
      exact ⟨idxs, hnd, hfresh, by simp only [matchLoop, hs]; exact hmap⟩
    | some c =>
      rcases c with ⟨i, r⟩
      rcases scanRx_some_valid hs with ⟨hiu, _, _, hilen, hig⟩
      rcases ih (pn + 1) (i :: used) with ⟨idxs, hnd, hfresh, hmap⟩
      refine ⟨i :: idxs, ?_, ?_, ?_⟩
      · refine List.nodup_cons.mpr ⟨?_, hnd⟩
        intro hmem
        exact (hfresh i hmem).1 (List.mem_cons_self i used)
      · intro j hj
        rcases List.mem_cons.mp hj with hj | hj
        · exact hj ▸ ⟨hiu, hilen⟩
        · rcases hfresh j hj with ⟨hju, hjl⟩
          exact ⟨fun hju2 => hju (List.mem_cons_of_mem i hju2), hjl⟩
      · simp only [matchLoop, hs, List.map_cons]
        rw [hmap, hig]
        rfl

/-! ## Lemmas about the edge detector -/

/-- The detector loop, started from any well-formed previous level, emits
exactly the timestamps of samples at level 1 whose predecessor (the carried
previous level at the head) is not 1. -/
theorem detectGo_eq :
    ∀ (ls : List ℤ) (ts : List ℚ) (prev : ℤ),
      (∀ v ∈ ls, v = 0 ∨ v = 1) → (prev = 0 ∨ prev = 1) →
      ts.length = ls.length →
      detectGo prev (ts.zip ls) =
        ((ts.zip ((prev :: ls).zip ls)).filter fun p =>
          decide (p.2.1 ≠ 1) && decide (p.2.2 = 1)).map (·.1) := by
  intro ls
  induction ls with
  | nil =>
    intro ts prev _ _ hlen
    rw [List.length_eq_zero.mp hlen]
    rfl
  | cons v ls' ih =>
    intro ts prev hlev hprev hlen
    cases ts with
    | nil => simp at hlen
    | cons t ts' =>
      have hv : v = 0 ∨ v = 1 := hlev v (List.mem_cons_self v ls')
      have hlev' : ∀ w ∈ ls', w = 0 ∨ w = 1 := fun w hw =>
        hlev w (List.mem_cons_of_mem v hw)
      have hlen' : ts'.length = ls'.length := by simpa using hlen
      rw [List.zip_cons_cons, List.zip_cons_cons, List.zip_cons_cons]
      rcases hprev with hp | hp <;> rcases hv with hv | hv <;> subst hp <;>
        subst hv <;>
        simp only [detectGo, List.filter_cons, List.map_cons] <;>
        norm_num <;>
        first
          | simpa using ih ts' 0 hlev' (Or.inl rfl) hlen'
          | simpa using ih ts' 1 hlev' (Or.inr rfl) hlen'

/-- Filtering a zip on a predicate of the second component has the length
of the count of that predicate on the second list, when lengths agree. -/
theorem filter_zip_length {α β : Type} (p : β → Bool) :
    ∀ (l1 : List α) (l2 : List β), l1.length = l2.length →
      ((l1.zip l2).filter fun x => p x.2).length = l2.countP p := by
  intro l1
  induction l1 with
  | nil =>
    intro l2 hlen
    rw [(List.length_eq_zero.mp hlen.symm)]
    rfl
  | cons a l1' ih =>
    intro l2 hlen
    cases l2 with
    | nil => simp at hlen
    | cons b l2' =>
      have hlen' : l1'.length = l2'.length := by simpa using hlen
      rw [List.zip_cons_cons, List.filter_cons, List.countP_cons]
      cases hb : p b with
      | false => simp [hb, ih l2' hlen']
      | true => simp [hb, ih l2' hlen']

/-! ## Lemmas about folded minima and maxima -/

theorem foldl_min_le_init : ∀ (l : List ℚ) (a : ℚ), l.foldl min a ≤ a := by
  intro l
  induction l with
  | nil => intro a; simp
  | cons x l' ih =>
    intro a
    calc (x :: l').foldl min a = l'.foldl min (min a x) := rfl
    _ ≤ min a x := ih (min a x)
    _ ≤ a := min_le_left a x

theorem foldl_min_le_mem :
    ∀ (l : List ℚ) (a x : ℚ), x ∈ l → l.foldl min a ≤ x := by
  intro l
  induction l with
  | nil => intro a x hx; simp at hx
  | cons y l' ih =>
    intro a x hx
    rcases List.mem_cons.mp hx with hxy | hxl
    · subst hxy
      calc (x :: l').foldl min a = l'.foldl min (min a x) := rfl
      _ ≤ min a x := foldl_min_le_init l' (min a x)
      _ ≤ x := min_le_right a x
    · exact ih (min a y) x hxl

theorem foldl_min_mem :
    ∀ (l : List ℚ) (a : ℚ), l.foldl min a = a ∨ l.foldl min a ∈ l := by
  intro l
  induction l with
  | nil => intro a; simp
  | cons x l' ih =>
    intro a
    rcases ih (min a x) with h | h
    · rcases min_choice a x with hm | hm
      · left
        calc (x :: l').foldl min a = l'.foldl min (min a x) := rfl
        _ = min a x := h
        _ = a := hm
      · right
        have hx : (x :: l').foldl min a = x := by
          calc (x :: l').foldl min a = l'.foldl min (min a x) := rfl
          _ = min a x := h
          _ = x := hm
        rw [hx]
        exact List.mem_cons_self x l'
    · exact Or.inr (List.mem_cons_of_mem x h)

theorem init_le_foldl_max : ∀ (l : List ℚ) (a : ℚ), a ≤ l.foldl max a := by
  intro l
  induction l with
  | nil => intro a; simp
  | cons x l' ih =>
    intro a
    calc a ≤ max a x := le_max_left a x
    _ ≤ l'.foldl max (max a x) := ih (max a x)
    _ = (x :: l').foldl max a := rfl

theorem mem_le_foldl_max :
    ∀ (l : List ℚ) (a x : ℚ), x ∈ l → x ≤ l.foldl max a := by
  intro l
  induction l with
  | nil => intro a x hx; simp at hx
  | cons y l' ih =>
    intro a x hx
    rcases List.mem_cons.mp hx with hxy | hxl
    · subst hxy
      calc x ≤ max a x := le_max_right a x
      _ ≤ l'.foldl max (max a x) := init_le_foldl_max l' (max a x)
      _ = (x :: l').foldl max a := rfl
    · exact ih (max a y) x hxl

theorem foldl_max_mem :
    ∀ (l : List ℚ) (a : ℚ), l.foldl max a = a ∨ l.foldl max a ∈ l := by
  intro l
  induction l with
  | nil => intro a; simp
  | cons x l' ih =>
    intro a
    rcases ih (max a x) with h | h
    · rcases max_choice a x with hm | hm
      · left
        calc (x :: l').foldl max a = l'.foldl max (max a x) := rfl
        _ = max a x := h
        _ = a := hm
      · right
        have hx : (x :: l').foldl max a = x := by
          calc (x :: l').foldl max a = l'.foldl max (max a x) := rfl
          _ = max a x := h
          _ = x := hm
        rw [hx]
        exact List.mem_cons_self x l'
    · exact Or.inr (List.mem_cons_of_mem x h)

/-! ## Claim theorems -/

/-- C1: for every list of send-event timestamps, receive-event timestamps
and `max_latency > 0`, the matcher is exactly the greedy algorithm of the
spec — enumerate send events in order; for each, consider exactly the
unconsumed receive events with `t_r > t_s` and `t_r - t_s ≤ max_latency`;
select the smallest-latency one, ties to the lowest scan index; emit a
measurement and consume it. In particular a successful scan returns a
candidate, no considered-and-unconsumed candidate has a strictly smaller
latency, and equal-latency candidates have scan indices no lower than the
chosen one. -/
theorem matcher_implements_greedy_nearest_spec (tx rx : List ℚ)
    (max_latency : ℚ) (_hpos : 0 < max_latency) :
    match_triggers_and_calculate_latency tx rx max_latency =
      spec_matcher tx rx max_latency ∧
    (∀ (used : List ℕ) (t_s : ℚ),
      scanRx t_s max_latency used 0 none rx = none →
        spec_candidates used t_s max_latency rx = []) ∧
    ∀ (used : List ℕ) (t_s : ℚ) (i : ℕ) (r : ℚ),
      scanRx t_s max_latency used 0 none rx = some (i, r) →
        (i, r) ∈ spec_candidates used t_s max_latency rx ∧
        ∀ p ∈ spec_candidates used t_s max_latency rx,
          r - t_s ≤ p.2 - t_s ∧ (p.2 - t_s = r - t_s → i ≤ p.1) := by
  refine ⟨matchLoop_eq_spec_loop max_latency rx tx 0 [], ?_, ?_⟩
  · intro used t_s h
    rw [scanRx_eq_spec_select] at h
    exact (firstMin_eq_none_iff t_s _).mp h
  · intro used t_s i r h
    rw [scanRx_eq_spec_select] at h
    refine ⟨firstMin_mem h, fun p hp => ⟨firstMin_le h p hp, fun heq => ?_⟩⟩
    exact firstMin_leftmost (spec_candidates_pairwise_fst used t_s max_latency rx)
      h p hp heq

/-- Witness for C1 at scenario A of the spec. -/
theorem matcher_implements_greedy_nearest_spec_witness :
    match_triggers_and_calculate_latency [0, 10] [2, 12] 100 =
      spec_matcher [0, 10] [2, 12] 100 ∧
    (∀ (used : List ℕ) (t_s : ℚ),
      scanRx t_s 100 used 0 none [2, 12] = none →
        spec_candidates used t_s 100 [2, 12] = []) ∧
    ∀ (used : List ℕ) (t_s : ℚ) (i : ℕ) (r : ℚ),
      scanRx t_s 100 used 0 none [2, 12] = some (i, r) →
        (i, r) ∈ spec_candidates used t_s 100 [2, 12] ∧
        ∀ p ∈ spec_candidates used t_s 100 [2, 12],
          r - t_s ≤ p.2 - t_s ∧ (p.2 - t_s = r - t_s → i ≤ p.1) :=
  matcher_implements_greedy_nearest_spec [0, 10] [2, 12] 100 (by decide)

/-- C2: with `max_latency > 0`, every measurement the matcher produces has
`latency = receive_time - send_time`, `receive_time > send_time`, and
`0 < latency ≤ max_latency`. -/
theorem measurement_fields_valid (tx rx : List ℚ) (max_latency : ℚ)
    (_hpos : 0 < max_latency) :
    ∀ mm ∈ (match_triggers_and_calculate_latency tx rx max_latency).1,
      mm.latency = mm.rx_time - mm.tx_time ∧ mm.tx_time < mm.rx_time ∧
        0 < mm.latency ∧ mm.latency ≤ max_latency := by
  intro mm hmm
  rcases matchLoop_measurement_valid max_latency rx tx 0 [] mm hmm with
    ⟨h1, h2, h3⟩
  refine ⟨h1, h2, ?_, ?_⟩
  · rw [h1]; linarith
  · rw [h1]; exact h3

/-- Witness for C2 at scenario A of the spec, instantiated at the first
emitted measurement. -/
theorem measurement_fields_valid_witness :
    (LatencyMeasurement.make 0 0 2).latency =
        (LatencyMeasurement.make 0 0 2).rx_time -
          (LatencyMeasurement.make 0 0 2).tx_time ∧
    (LatencyMeasurement.make 0 0 2).tx_time <
        (LatencyMeasurement.make 0 0 2).rx_time ∧
    0 < (LatencyMeasurement.make 0 0 2).latency ∧
    (LatencyMeasurement.make 0 0 2).latency ≤ 100 :=
  measurement_fields_valid [0, 10] [2, 12] 100 (by decide)
    (LatencyMeasurement.make 0 0 2)
    (by norm_num [match_triggers_and_calculate_latency, matchLoop, scanRx,
      LatencyMeasurement.make])

/-- C3: for every well-formed level sequence with aligned timestamps, the
detected edges are exactly the timestamps of the first samples of the
maximal runs of 1s not preceded by a 1 (implicit 0 before the first
sample), so their number is the number of such runs; in particular levels
`[0,0,1,1,0,1]` at timestamps `[0,1,2,3,4,5]` yield exactly `[2,5]`. -/
theorem edge_detection_counts_runs (timestamps : List ℚ) (levels : List ℤ)
    (hlev : ∀ v ∈ levels, v = 0 ∨ v = 1)
    (hlen : timestamps.length = levels.length) :
    detect_rising_edges timestamps levels = run_start_times timestamps levels ∧
    (detect_rising_edges timestamps levels).length = maximal_run_count levels ∧
    detect_rising_edges [0, 1, 2, 3, 4, 5] [0, 0, 1, 1, 0, 1] = [2, 5] := by
  have h1 : detect_rising_edges timestamps levels =
      run_start_times timestamps levels :=
    detectGo_eq levels timestamps 0 hlev (Or.inl rfl) hlen
  refine ⟨h1, ?_, rfl⟩
  rw [h1]
  unfold run_start_times maximal_run_count
  rw [List.length_map]
  have hl2 : timestamps.length = (((0 : ℤ) :: levels).zip levels).length := by
    rw [List.length_zip, List.length_cons, hlen]
    omega
  exact filter_zip_length (fun y => decide (y.1 ≠ 1) && decide (y.2 = 1))
    timestamps (((0 : ℤ) :: levels).zip levels) hl2

/-- Witness for C3 at the example of the spec. -/
theorem edge_detection_counts_runs_witness :
    detect_rising_edges [0, 1, 2, 3, 4, 5] [0, 0, 1, 1, 0, 1] =
      run_start_times [0, 1, 2, 3, 4, 5] [0, 0, 1, 1, 0, 1] ∧
    (detect_rising_edges [0, 1, 2, 3, 4, 5] [0, 0, 1, 1, 0, 1]).length =
      maximal_run_count [0, 0, 1, 1, 0, 1] ∧
    detect_rising_edges [0, 1, 2, 3, 4, 5] [0, 0, 1, 1, 0, 1] = [2, 5] :=
  edge_detection_counts_runs [0, 1, 2, 3, 4, 5] [0, 0, 1, 1, 0, 1]
    (by decide) (by decide)

/-- C4 counterexample: a sequence starting at level 1 DOES produce an edge
at the first sample, contrary to the claim — `prev_value` is initialised to
0, so the first sample at level 1 satisfies the edge condition. -/
theorem first_sample_level_one_counterexample :
    detect_rising_edges [5] [1] = [5] := rfl

/-- C4 amended: since the implicit initial previous level is 0, a sequence
that starts at level 1 DOES count as an edge at its first sample, and the
first emitted edge timestamp is the timestamp of that first sample. -/
theorem first_sample_level_one_emits_edge (t : ℚ) (ts' : List ℚ)
    (ls' : List ℤ) :
    (detect_rising_edges (t :: ts') ((1 : ℤ) :: ls')).head? = some t := by
  simp [detect_rising_edges, detectGo]

/-- C5 counterexample: with duplicated receive timestamps the matcher emits
two measurements sharing the same `receive_time` — the claim fails for the
input `tx = [1, 2]`, `rx = [5, 5]`, `max_latency = 100`. -/
theorem duplicate_rx_time_counterexample :
    (match_triggers_and_calculate_latency [1, 2] [5, 5] 100).1.map
      (·.rx_time) = [5, 5] ∧
    ¬ ((match_triggers_and_calculate_latency [1, 2] [5, 5] 100).1).Pairwise
      (fun a b => a.rx_time ≠ b.rx_time) := by
  constructor <;>
    norm_num [match_triggers_and_calculate_latency, matchLoop, scanRx,
      LatencyMeasurement.make]

/-- C5 amended: the matcher consumes pairwise distinct receive-event
indices, so whenever the receive timestamps are pairwise distinct no two
measurements share the same `receive_time`. -/
theorem distinct_rx_times_of_nodup (tx rx : List ℚ) (max_latency : ℚ)
    (hnd : rx.Nodup) :
    ((match_triggers_and_calculate_latency tx rx max_latency).1).Pairwise
      (fun a b => a.rx_time ≠ b.rx_time) := by
  rcases matchLoop_rx_indices max_latency rx tx 0 [] with
    ⟨idxs, hidnd, hbound, hmap⟩
  have h1 : List.Pairwise (fun a b : ℕ => rx.getD a 0 ≠ rx.getD b 0) idxs := by
    refine List.Pairwise.imp_of_mem ?_ hidnd
    intro a b ha hb hab he
    rcases hbound a ha with ⟨_, hal⟩
    rcases hbound b hb with ⟨_, hbl⟩
    rw [List.getD_eq_getElem _ _ hal, List.getD_eq_getElem _ _ hbl] at he
    exact hab ((List.Nodup.getElem_inj_iff hnd).mp he)
  have h2 : List.Pairwise (fun a b : ℚ => a ≠ b)
      (idxs.map (fun i => rx.getD i 0)) := List.pairwise_map.mpr h1
  rw [← hmap] at h2
  exact List.pairwise_map.mp h2

/-- Witness for C5 amended: distinct receive timestamps give pairwise
distinct receive times in the output. -/
theorem distinct_rx_times_of_nodup_witness :
    ((match_triggers_and_calculate_latency [1, 2] [5, 12] 100).1).Pairwise
      (fun a b => a.rx_time ≠ b.rx_time) :=
  distinct_rx_times_of_nodup [1, 2] [5, 12] 100 (by decide)

/-- C6: an empty detected trigger sequence aborts the pipeline with the
empty-channel error before matching; zero measurements abort it with the
distinct no-valid-pairs error; in both cases no report is produced. -/
theorem pipeline_fatal_errors (tx rx : List ℚ) (max_latency : ℚ) :
    (tx = [] →
      analysis_pipeline tx rx max_latency = PipelineResult.emptyTxError) ∧
    (tx ≠ [] → rx = [] →
      analysis_pipeline tx rx max_latency = PipelineResult.emptyRxError) ∧
    (tx ≠ [] → rx ≠ [] →
      (match_triggers_and_calculate_latency tx rx max_latency).1 = [] →
      analysis_pipeline tx rx max_latency = PipelineResult.noValidPairsError) ∧
    ((tx = [] ∨ rx = [] ∨
        (match_triggers_and_calculate_latency tx rx max_latency).1 = []) →
      ∀ r, analysis_pipeline tx rx max_latency ≠ PipelineResult.report r) := by
  refine ⟨?_, ?_, ?_, ?_⟩
  · intro h
    simp [analysis_pipeline, h]
  · intro h1 h2
    simp [analysis_pipeline, h1, h2]
  · intro h1 h2 h3
    simp [analysis_pipeline, h1, h2, h3]
  · intro hor r
    by_cases htx : tx = []
    · simp [analysis_pipeline, htx]
    · by_cases hrx : rx = []
      · simp [analysis_pipeline, htx, hrx]
      · rcases hor with h | h | h
        · exact absurd h htx
        · exact absurd h hrx
        · simp [analysis_pipeline, htx, hrx, h]

/-- Witness for C6: scenario C (empty send channel), an empty receive
channel, and scenario B (no valid pairs). -/
theorem pipeline_fatal_errors_witness :
    analysis_pipeline [] [5] 100 = PipelineResult.emptyTxError ∧
    analysis_pipeline [0] [] 100 = PipelineResult.emptyRxError ∧
    analysis_pipeline [0] [50] 10 = PipelineResult.noValidPairsError ∧
    ∀ r, analysis_pipeline [0] [50] 10 ≠ PipelineResult.report r := by
  have h1 := pipeline_fatal_errors [] [5] 100
  have h2 := pipeline_fatal_errors [0] ([] : List ℚ) 100
  have h3 := pipeline_fatal_errors [0] [50] 10
  have hm : (match_triggers_and_calculate_latency [0] [50] 10).1 = [] := by
    norm_num [match_triggers_and_calculate_latency, matchLoop, scanRx]
  exact ⟨h1.1 rfl, h2.2.1 (by simp) rfl, h3.2.2.1 (by simp) (by simp) hm,
    h3.2.2.2 (Or.inr (Or.inr hm))⟩

/-- C7: a send event with no qualifying receive event is recoverable — the
matcher records it in the diagnostic list next to the measurements, emits
no measurement for it, and processes the remaining send events exactly as
it would have, with the consumed set unchanged. -/
theorem unmatched_send_is_recoverable (max_latency t_s : ℚ)
    (rx tx_rest : List ℚ) (pn : ℕ) (used : List ℕ)
    (h : spec_candidates used t_s max_latency rx = []) :
    matchLoop max_latency rx pn used (t_s :: tx_rest) =
      ((matchLoop max_latency rx (pn + 1) used tx_rest).1,
        (pn, t_s) :: (matchLoop max_latency rx (pn + 1) used tx_rest).2) ∧
    (pn, t_s) ∈ (matchLoop max_latency rx pn used (t_s :: tx_rest)).2 ∧
    ∀ mm ∈ (matchLoop max_latency rx pn used (t_s :: tx_rest)).1,
      mm.packet_num ≠ pn := by
  have hs : scanRx t_s max_latency used 0 none rx = none := by
    rw [scanRx_eq_spec_select, spec_select, h]
    rfl
  have heq : matchLoop max_latency rx pn used (t_s :: tx_rest) =
      ((matchLoop max_latency rx (pn + 1) used tx_rest).1,
        (pn, t_s) :: (matchLoop max_latency rx (pn + 1) used tx_rest).2) := by
    simp [matchLoop, hs]
  refine ⟨heq, ?_, ?_⟩
  · rw [heq]
    exact List.mem_cons_self _ _
  · intro mm hmm
    rw [heq] at hmm
    have := (matchLoop_packet_num max_latency rx tx_rest (pn + 1) used
      mm hmm).1
    omega

/-- Witness for C7 at scenario B of the spec. -/
theorem unmatched_send_is_recoverable_witness :
    matchLoop 10 [50] 0 [] [(0 : ℚ)] =
      ((matchLoop 10 [50] 1 [] []).1,
        ((0 : ℕ), (0 : ℚ)) :: (matchLoop 10 [50] 1 [] []).2) ∧
    ((0 : ℕ), (0 : ℚ)) ∈ (matchLoop 10 [50] 0 [] [(0 : ℚ)]).2 ∧
    ∀ mm ∈ (matchLoop 10 [50] 0 [] [(0 : ℚ)]).1, mm.packet_num ≠ 0 :=
  unmatched_send_is_recoverable 10 0 [50] [] 0 []
    (by norm_num [spec_candidates, eligible, List.enum, List.enumFrom])

/-- C8: on a non-empty measurement sequence the report carries the count,
the unweighted mean, the attained minimum and maximum of the latency field,
and one row per measurement; on an empty sequence it is the sentinel
no-data report and no statistics are computed. -/
theorem report_builder_statistics (measurements : List LatencyMeasurement)
    (h : measurements ≠ []) :
    generate_markdown_table [] = Report.noData ∧
    (generate_markdown_table measurements).rows = measurements ∧
    (generate_markdown_table measurements).count = measurements.length ∧
    (generate_markdown_table measurements).avg * (measurements.length : ℚ) =
      (measurements.map (·.latency)).sum ∧
    (generate_markdown_table measurements).minLat ∈
      measurements.map (·.latency) ∧
    (∀ x ∈ measurements.map (·.latency),
      (generate_markdown_table measurements).minLat ≤ x) ∧
    (generate_markdown_table measurements).maxLat ∈
      measurements.map (·.latency) ∧
    (∀ x ∈ measurements.map (·.latency),
      x ≤ (generate_markdown_table measurements).maxLat) := by
  rcases List.exists_cons_of_ne_nil h with ⟨m, rest, rfl⟩
  simp only [generate_markdown_table, Report.rows, Report.count, Report.avg,
    Report.minLat, Report.maxLat]
  refine ⟨trivial, trivial, trivial, ?_, ?_, ?_, ?_, ?_⟩
  · rw [List.length_map, div_mul_cancel₀]
    exact Nat.cast_ne_zero.mpr (by simp)
  · rcases foldl_min_mem (rest.map (·.latency)) m.latency with hm | hm
    · rw [hm]
      simp
    · simp only [List.map_cons]
      exact List.mem_cons_of_mem _ hm
  · intro x hx
    simp only [List.map_cons, List.mem_cons] at hx
    rcases hx with hx | hx
    · rw [hx]
      exact foldl_min_le_init _ _
    · exact foldl_min_le_mem _ _ _ hx
  · rcases foldl_max_mem (rest.map (·.latency)) m.latency with hm | hm
    · rw [hm]
      simp
    · simp only [List.map_cons]
      exact List.mem_cons_of_mem _ hm
  · intro x hx
    simp only [List.map_cons, List.mem_cons] at hx
    rcases hx with hx | hx
    · rw [hx]
      exact init_le_foldl_max _ _
    · exact mem_le_foldl_max _ _ _ hx

/-- Witness for C8 on a one-element measurement list. -/
theorem report_builder_statistics_witness :
    generate_markdown_table [] = Report.noData ∧
    (generate_markdown_table [LatencyMeasurement.make 0 0 2]).rows =
      [LatencyMeasurement.make 0 0 2] ∧
    (generate_markdown_table [LatencyMeasurement.make 0 0 2]).count =
      [LatencyMeasurement.make 0 0 2].length ∧
    (generate_markdown_table [LatencyMeasurement.make 0 0 2]).avg *
        ([LatencyMeasurement.make 0 0 2].length : ℚ) =
      ([LatencyMeasurement.make 0 0 2].map (·.latency)).sum ∧
    (generate_markdown_table [LatencyMeasurement.make 0 0 2]).minLat ∈
      [LatencyMeasurement.make 0 0 2].map (·.latency) ∧
    (∀ x ∈ [LatencyMeasurement.make 0 0 2].map (·.latency),
      (generate_markdown_table [LatencyMeasurement.make 0 0 2]).minLat ≤ x) ∧
    (generate_markdown_table [LatencyMeasurement.make 0 0 2]).maxLat ∈
      [LatencyMeasurement.make 0 0 2].map (·.latency) ∧
    (∀ x ∈ [LatencyMeasurement.make 0 0 2].map (·.latency),
      x ≤ (generate_markdown_table [LatencyMeasurement.make 0 0 2]).maxLat) :=
  report_builder_statistics [LatencyMeasurement.make 0 0 2] (by simp)

/-- C9: the matcher output is a strict one-to-one pairing by position —
packet numbers strictly increase and index the send list, the receive
times are read off pairwise distinct in-range receive indices, and the
number of measurements is at most the minimum of the two input lengths. -/
theorem one_to_one_pairing_invariants (tx rx : List ℚ) (max_latency : ℚ) :
    ((match_triggers_and_calculate_latency tx rx max_latency).1).Pairwise
      (fun a b => a.packet_num < b.packet_num) ∧
    (∀ mm ∈ (match_triggers_and_calculate_latency tx rx max_latency).1,
      mm.packet_num < tx.length ∧ tx.getD mm.packet_num 0 = mm.tx_time) ∧
    (∃ idxs : List ℕ, idxs.Nodup ∧ (∀ i ∈ idxs, i < rx.length) ∧
      (match_triggers_and_calculate_latency tx rx max_latency).1.map
        (·.rx_time) = idxs.map (fun i => rx.getD i 0)) ∧
    (match_triggers_and_calculate_latency tx rx max_latency).1.length ≤
      min tx.length rx.length := by
  refine ⟨matchLoop_packet_sorted max_latency rx tx 0 [], ?_, ?_, ?_⟩
  · intro mm hmm
    rcases matchLoop_packet_num max_latency rx tx 0 [] mm hmm with ⟨_, h2, h3⟩
    constructor
    · simpa using h2
    · simpa using h3
  · rcases matchLoop_rx_indices max_latency rx tx 0 [] with ⟨idxs, hnd, hb, hm⟩
    exact ⟨idxs, hnd, fun i hi => (hb i hi).2, hm⟩
  · refine le_min (matchLoop_length_le max_latency rx tx 0 []) ?_
    rcases matchLoop_rx_indices max_latency rx tx 0 [] with ⟨idxs, hnd, hb, hm⟩
    have hlen : (match_triggers_and_calculate_latency tx rx max_latency).1.length
        = idxs.length := by
      have := congrArg List.length hm
      simpa using this
    rw [hlen]
    have hsub : idxs.toFinset ⊆ Finset.range rx.length := by
      intro i hi
      rw [Finset.mem_range]
      exact (hb i (List.mem_toFinset.mp hi)).2
    have hcard := Finset.card_le_card hsub
    rwa [List.toFinset_card_of_nodup hnd, Finset.card_range] at hcard

/-- C10: without any ordering assumption on either input list, every
emitted measurement still satisfies the causality and bound constraints,
because the scan checks them per candidate. -/
theorem measurements_valid_for_unsorted_inputs (tx rx : List ℚ)
    (max_latency : ℚ) :
    ∀ mm ∈ (match_triggers_and_calculate_latency tx rx max_latency).1,
      mm.tx_time < mm.rx_time ∧ mm.rx_time - mm.tx_time ≤ max_latency := by
  intro mm hmm
  rcases matchLoop_measurement_valid max_latency rx tx 0 [] mm hmm with
    ⟨_, h2, h3⟩
  exact ⟨h2, h3⟩

/-- Witness for C10 on unsorted inputs, instantiated at the measurement the
out-of-order send event receives. -/
theorem measurements_valid_for_unsorted_inputs_witness :
    (LatencyMeasurement.make 1 3 4).tx_time <
        (LatencyMeasurement.make 1 3 4).rx_time ∧
    (LatencyMeasurement.make 1 3 4).rx_time -
        (LatencyMeasurement.make 1 3 4).tx_time ≤ 100 :=
  measurements_valid_for_unsorted_inputs [10, 3] [4, 12] 100
    (LatencyMeasurement.make 1 3 4)
    (by norm_num [match_triggers_and_calculate_latency, matchLoop, scanRx,
      LatencyMeasurement.make])

end PPK
